import Mathlib

/-! Formal model of the four-in-a-row board engine (day5): grid state,
gravity placement, win detection, seeded random fill, and rendering,
with the claimed properties proved against the model. -/

namespace Day5

/-- The four cell variants of the grid. -/
inductive Piece where
  | Empty
  | Wall
  | Cookie
  | Milk
deriving DecidableEq

/-- Board width (number of columns), the source constant WIDTH. -/
def WIDTH : Nat := 6

/-- Board height (number of rows), the source constant HEIGHT. -/
def HEIGHT : Nat := 5

/-- Model of the board's owned random generator (StdRng seeded from a
fixed constant). The stream of generated booleans is abstracted as a
function of the seed and the draw index; the generator state is the seed
together with the number of draws made so far. -/
structure RngT where
  seed : Nat
  idx : Nat
deriving DecidableEq

/-- Drawing one boolean returns the next stream element and advances the
generator by one position. -/
def RngT.genBool (bits : Nat → Nat → Bool) (r : RngT) : Bool × RngT :=
  (bits r.seed r.idx, ⟨r.seed, r.idx + 1⟩)

/-- The board state: row-major grid of WIDTH * HEIGHT cells, optional
winner, finished flag, and the owned generator. -/
structure Board where
  grid : Fin (WIDTH * HEIGHT) → Piece
  winner : Option Piece
  finished : Bool
  rng : RngT

/-- Reading a cell: grid[row * WIDTH + col]. Every call site in the source
supplies in-bounds coordinates; an out-of-bounds index (a panic in the
source, unreachable) is mapped to Empty. -/
def Board.get_piece (b : Board) (row col : Nat) : Piece :=
  if h : row * WIDTH + col < WIDTH * HEIGHT then b.grid ⟨row * WIDTH + col, h⟩
  else Piece.Empty

/-- Whether the grid holds a played token (Cookie or Milk) at a cell. -/
def Board.has_piece (b : Board) (row col : Nat) : Bool :=
  match b.get_piece row col with
  | Piece.Cookie => true
  | Piece.Milk => true
  | _ => false

/-- True when no Empty cell remains anywhere in the grid. -/
def gridFull (g : Fin (WIDTH * HEIGHT) → Piece) : Bool :=
  !((List.finRange (WIDTH * HEIGHT)).any fun i => g i == Piece.Empty)

/-- check_finished: finished is recomputed as "no Empty cell remains". -/
def Board.check_finished (b : Board) : Board :=
  { b with finished := gridFull b.grid }

/-- set_piece: write a cell, then re-evaluate finished. An out-of-bounds
write (a panic in the source, unreachable from its call sites) leaves the
grid unchanged. -/
def Board.set_piece (b : Board) (row col : Nat) (piece : Piece) : Board :=
  Board.check_finished
    (if h : row * WIDTH + col < WIDTH * HEIGHT then
      { b with grid := Function.update b.grid ⟨row * WIDTH + col, h⟩ piece }
    else b)

/-- The ten candidate lines exactly as listed in the source: the four
rows, the four columns, then the two diagonals. -/
def winCoords : List (List (Nat × Nat)) :=
  [ [(0, 1), (0, 2), (0, 3), (0, 4)],
    [(1, 1), (1, 2), (1, 3), (1, 4)],
    [(2, 1), (2, 2), (2, 3), (2, 4)],
    [(3, 1), (3, 2), (3, 3), (3, 4)],
    [(0, 1), (1, 1), (2, 1), (3, 1)],
    [(0, 2), (1, 2), (2, 2), (3, 2)],
    [(0, 3), (1, 3), (2, 3), (3, 3)],
    [(0, 4), (1, 4), (2, 4), (3, 4)],
    [(0, 1), (1, 2), (2, 3), (3, 4)],
    [(3, 1), (2, 2), (1, 3), (0, 4)] ]

/-- The scan loop of check_winner: at the first line whose four cells are
all Milk or all Cookie, record the winner and finish; otherwise continue. -/
def checkLines (b : Board) : List (List (Nat × Nat)) → Board
  | [] => b
  | coord :: rest =>
      let pieces := coord.map fun rc => b.get_piece rc.1 rc.2
      if pieces = List.replicate 4 Piece.Milk ∨ pieces = List.replicate 4 Piece.Cookie then
        { b with winner := some (pieces.getD 0 Piece.Empty), finished := true }
      else
        checkLines b rest

/-- check_winner: a no-op when a winner is already recorded, otherwise the
scan over the fixed list of lines. -/
def Board.check_winner (b : Board) : Board :=
  if b.winner.isSome then b else checkLines b winCoords

/-- Display glyph of a piece. -/
def pieceDisplay : Piece → String
  | Piece.Wall => "⬜"
  | Piece.Cookie => "🍪"
  | Piece.Milk => "🥛"
  | Piece.Empty => "⬛"

/-- Debug rendering of a piece delegates to Display in the source. -/
def pieceDebug (p : Piece) : String := pieceDisplay p

/-- The HEIGHT grid lines of the rendering, each of WIDTH glyphs and a
terminating newline. -/
def gridLines (b : Board) : String :=
  String.join ((List.range HEIGHT).map fun row =>
    String.join ((List.range WIDTH).map fun col => pieceDisplay (b.get_piece row col)) ++ "\n")

/-- Display for Board: the grid lines, then the optional trailing line. -/
def boardDisplay (b : Board) : String :=
  match b.winner with
  | some winner => gridLines b ++ (pieceDebug winner ++ " wins!\n")
  | none => if b.finished then gridLines b ++ "No winner.\n" else gridLines b

/-- Status code of the "board finished" failure condition. -/
def SERVICE_UNAVAILABLE : Nat := 503

/-- Status code of the "bad input" failure condition. -/
def BAD_REQUEST : Nat := 400

/-- The gravity scan of play_piece over the playable rows from the bottom
up; rows are supplied as the list [3, 2, 1, 0]. -/
def placeLoop (b : Board) (team : Piece) (col : Nat) :
    List Nat → Board × Except (Nat × String) Unit
  | [] => (b, Except.error (SERVICE_UNAVAILABLE, boardDisplay b))
  | row :: rest =>
      if b.has_piece row col then placeLoop b team col rest
      else (b.set_piece row col team, Except.ok ())

/-- play_piece: the validation chain and the gravity scan. The pair holds
the board after the call together with the result; every failure branch of
the source returns before any mutation, so it carries the board unchanged. -/
def Board.play_piece (b : Board) (team : String) (col : Nat) :
    Board × Except (Nat × String) Unit :=
  if b.finished then (b, Except.error (SERVICE_UNAVAILABLE, boardDisplay b))
  else if ¬(1 ≤ col ∧ col ≤ 4) then (b, Except.error (BAD_REQUEST, ""))
  else
    match team with
    | "cookie" => placeLoop b Piece.Cookie col [3, 2, 1, 0]
    | "milk" => placeLoop b Piece.Milk col [3, 2, 1, 0]
    | _ => (b, Except.error (BAD_REQUEST, ""))

/-- Row-major fill order of random_board: rows 0..HEIGHT-2, inside each
row columns 1..WIDTH-2. -/
def fillOrder : List (Nat × Nat) :=
  (List.range (HEIGHT - 1)).flatMap fun row =>
    (List.range (WIDTH - 2)).map fun i => (row, i + 1)

/-- The fill loop of random_board: one boolean drawn per cell, Cookie on
true, Milk on false. -/
def fillLoop (bits : Nat → Nat → Bool) : Board → List (Nat × Nat) → Board
  | b, [] => b
  | b, (row, col) :: rest =>
      let g := b.rng.genBool bits
      fillLoop bits (({ b with rng := g.2 }).set_piece row col
        (if g.1 then Piece.Cookie else Piece.Milk)) rest

/-- random_board: clear winner, fill every playable cell, check winner. -/
def Board.random_board (bits : Nat → Nat → Bool) (b : Board) : Board :=
  Board.check_winner (fillLoop bits { b with winner := none } fillOrder)

/-- new(): blank grid, walls written onto the two side columns and the
bottom row, generator seeded with the fixed constant 2024. -/
def Board.new : Board :=
  let b0 : Board :=
    { grid := fun _ => Piece.Empty, winner := none, finished := false, rng := ⟨2024, 0⟩ }
  let b1 := (List.range HEIGHT).foldl
    (fun acc row => (acc.set_piece row 0 Piece.Wall).set_piece row (WIDTH - 1) Piece.Wall) b0
  (List.range WIDTH).foldl (fun acc col => acc.set_piece (HEIGHT - 1) col Piece.Wall) b1

/-- reset(): replace the board with a fresh one. -/
def Board.reset (_ : Board) : Board := Board.new

/-- The operations available on a board without a reset; render is the
read-only operation. -/
inductive Op where
  | place (team : String) (col : Nat)
  | winCheck
  | randomize (bits : Nat → Nat → Bool)
  | render

/-- Effect of one operation on the board state. -/
def Op.apply : Op → Board → Board
  | Op.place team col, b => (b.play_piece team col).1
  | Op.winCheck, b => b.check_winner
  | Op.randomize bits, b => b.random_board bits
  | Op.render, b => b

/-- Run a sequence of operations left to right. -/
def runOps : List Op → Board → Board
  | [], b => b
  | op :: rest, b => runOps rest (Op.apply op b)

/-- Border invariant: the two side columns and the bottom row are Wall. -/
def Board.borderWall (b : Board) : Prop :=
  ∀ row < HEIGHT, ∀ col < WIDTH,
    (col = 0 ∨ col = WIDTH - 1 ∨ row = HEIGHT - 1) → b.get_piece row col = Piece.Wall

instance (b : Board) : Decidable b.borderWall := by
  unfold Board.borderWall
  infer_instance

/-- Specification-side description of one line's verdict, written from the
spec's words for the refinement of check_winner. -/
def lineWinnerSpec (b : Board) (coord : List (Nat × Nat)) : Option Piece :=
  if ∀ rc ∈ coord, b.get_piece rc.1 rc.2 = Piece.Milk then some Piece.Milk
  else if ∀ rc ∈ coord, b.get_piece rc.1 rc.2 = Piece.Cookie then some Piece.Cookie
  else none

/-- Specification-side description of check_winner: a no-op when a winner
exists, otherwise the first qualifying line in the fixed order decides. -/
def checkWinnerSpec (b : Board) : Board :=
  if b.winner.isSome then b
  else
    match winCoords.find? (fun coord => (lineWinnerSpec b coord).isSome) with
    | none => b
    | some coord => { b with winner := lineWinnerSpec b coord, finished := true }

/-- Specification-side list of the ten lines: the four rows top to bottom,
the four columns left to right, the descending diagonal, the ascending
diagonal. -/
def specWinLines : List (List (Nat × Nat)) :=
  ((List.range 4).map fun r => (List.range 4).map fun c => (r, c + 1)) ++
  ((List.range 4).map fun c => (List.range 4).map fun r => (r, c + 1)) ++
  [(List.range 4).map fun i => (i, i + 1),
   (List.range 4).map fun i => (3 - i, i + 1)]

/-- The piece a recognized team string denotes. -/
def teamPiece : String → Piece
  | "cookie" => Piece.Cookie
  | "milk" => Piece.Milk
  | _ => Piece.Empty

/-! Basic lemmas about the cell accessors. -/

theorem set_piece_winner (b : Board) (r c : Nat) (p : Piece) :
    (b.set_piece r c p).winner = b.winner := by
  unfold Board.set_piece Board.check_finished
  split <;> rfl

theorem set_piece_rng (b : Board) (r c : Nat) (p : Piece) :
    (b.set_piece r c p).rng = b.rng := by
  unfold Board.set_piece Board.check_finished
  split <;> rfl

theorem set_piece_finished (b : Board) (r c : Nat) (p : Piece) :
    (b.set_piece r c p).finished = gridFull (b.set_piece r c p).grid := by
  unfold Board.set_piece Board.check_finished
  split <;> rfl

theorem get_set_same (b : Board) (r c : Nat) (p : Piece)
    (h : r * WIDTH + c < WIDTH * HEIGHT) :
    (b.set_piece r c p).get_piece r c = p := by
  simp only [Board.set_piece, Board.check_finished, Board.get_piece, dif_pos h]
  exact Function.update_same _ _ _

theorem get_set_ne (b : Board) (r c r2 c2 : Nat) (p : Piece)
    (h : r * WIDTH + c ≠ r2 * WIDTH + c2) :
    (b.set_piece r c p).get_piece r2 c2 = b.get_piece r2 c2 := by
  simp only [Board.set_piece, Board.check_finished, Board.get_piece]
  by_cases h1 : r * WIDTH + c < WIDTH * HEIGHT
  · simp only [dif_pos h1]
    by_cases h2 : r2 * WIDTH + c2 < WIDTH * HEIGHT
    · simp only [dif_pos h2]
      exact Function.update_noteq (by simp [Fin.ext_iff]; omega) _ _
    · simp only [dif_neg h2]
  · simp only [dif_neg h1]

theorem has_piece_false_iff (b : Board) (r c : Nat)
    (hW : b.get_piece r c ≠ Piece.Wall) :
    b.has_piece r c = false ↔ b.get_piece r c = Piece.Empty := by
  rcases h : b.get_piece r c with _ | _ | _ | _ <;>
    simp [Board.has_piece, h] at hW ⊢

theorem has_piece_true_of (b : Board) (r c : Nat)
    (hW : b.get_piece r c ≠ Piece.Wall) (hE : b.get_piece r c ≠ Piece.Empty) :
    b.has_piece r c = true := by
  rcases h : b.get_piece r c with _ | _ | _ | _ <;>
    simp [Board.has_piece, h] at hW hE ⊢

/-! Lemmas about the win-detection scan. -/

theorem checkLines_grid (b : Board) (l : List (List (Nat × Nat))) :
    (checkLines b l).grid = b.grid := by
  induction l with
  | nil => rfl
  | cons coord rest ih =>
      simp only [checkLines]
      split
      · rfl
      · exact ih

theorem checkLines_rng (b : Board) (l : List (List (Nat × Nat))) :
    (checkLines b l).rng = b.rng := by
  induction l with
  | nil => rfl
  | cons coord rest ih =>
      simp only [checkLines]
      split
      · rfl
      · exact ih

theorem checkLines_finished_true (b : Board) (l : List (List (Nat × Nat)))
    (h : b.finished = true) : (checkLines b l).finished = true := by
  induction l with
  | nil => exact h
  | cons coord rest ih =>
      simp only [checkLines]
      split
      · rfl
      · exact ih

theorem check_winner_grid (b : Board) : (b.check_winner).grid = b.grid := by
  unfold Board.check_winner
  split
  · rfl
  · exact checkLines_grid b winCoords

theorem get_check_winner (b : Board) (r c : Nat) :
    (b.check_winner).get_piece r c = b.get_piece r c := by
  simp [Board.get_piece, check_winner_grid]

theorem check_winner_finished_true (b : Board) (h : b.finished = true) :
    (b.check_winner).finished = true := by
  unfold Board.check_winner
  split
  · exact h
  · exact checkLines_finished_true b winCoords h

theorem map_eq_replicate_iff (coord : List (Nat × Nat)) (f : Nat × Nat → Piece)
    (p : Piece) (h4 : coord.length = 4) :
    coord.map f = List.replicate 4 p ↔ ∀ rc ∈ coord, f rc = p := by
  rw [List.eq_replicate_iff]
  constructor
  · rintro ⟨-, h⟩ rc hrc
    exact h _ (List.mem_map_of_mem _ hrc)
  · intro h
    refine ⟨by simp [h4], ?_⟩
    intro x hx
    obtain ⟨rc, hrc, rfl⟩ := List.mem_map.mp hx
    exact h rc hrc

theorem getD_of_all_eq (coord : List (Nat × Nat)) (f : Nat × Nat → Piece)
    (p : Piece) (h4 : coord.length = 4) (h : ∀ rc ∈ coord, f rc = p) :
    (coord.map f).getD 0 Piece.Empty = p := by
  rcases coord with _ | ⟨x, rest⟩
  · simp at h4
  · simp [h x (by simp)]

theorem checkLines_eq_find (b : Board) (l : List (List (Nat × Nat)))
    (hlen : ∀ coord ∈ l, coord.length = 4) :
    checkLines b l =
      match l.find? (fun coord => (lineWinnerSpec b coord).isSome) with
      | none => b
      | some coord => { b with winner := lineWinnerSpec b coord, finished := true } := by
  induction l with
  | nil => rfl
  | cons coord rest ih =>
      have h4 : coord.length = 4 := hlen coord (by simp)
      have hmilk := map_eq_replicate_iff coord (fun rc => b.get_piece rc.1 rc.2) Piece.Milk h4
      have hcookie := map_eq_replicate_iff coord (fun rc => b.get_piece rc.1 rc.2) Piece.Cookie h4
      by_cases hq : (lineWinnerSpec b coord).isSome = true
      · rw [@List.find?_cons_of_pos _ (fun coord => (lineWinnerSpec b coord).isSome) coord rest hq]
        simp only [checkLines]
        unfold lineWinnerSpec at hq ⊢
        by_cases hm : ∀ rc ∈ coord, b.get_piece rc.1 rc.2 = Piece.Milk
        · rw [if_pos (Or.inl (hmilk.mpr hm))]
          rw [if_pos hm]
          have := getD_of_all_eq coord (fun rc => b.get_piece rc.1 rc.2) Piece.Milk h4 hm
          simp only [this]
        · by_cases hc : ∀ rc ∈ coord, b.get_piece rc.1 rc.2 = Piece.Cookie
          · rw [if_pos (Or.inr (hcookie.mpr hc))]
            rw [if_neg hm, if_pos hc]
            have := getD_of_all_eq coord (fun rc => b.get_piece rc.1 rc.2) Piece.Cookie h4 hc
            simp only [this]
          · rw [if_neg hm, if_neg hc] at hq
            simp at hq
      · rw [@List.find?_cons_of_neg _ (fun coord => (lineWinnerSpec b coord).isSome) coord rest hq]
        simp only [checkLines]
        rw [if_neg]
        · exact ih fun c hc => hlen c (by simp [hc])
        · unfold lineWinnerSpec at hq
          intro hor
          rcases hor with hm | hc
          · exact hq (by rw [if_pos (hmilk.mp hm)]; rfl)
          · have hcook := hcookie.mp hc
            by_cases hm2 : ∀ rc ∈ coord, b.get_piece rc.1 rc.2 = Piece.Milk
            · exact hq (by rw [if_pos hm2]; rfl)
            · exact hq (by rw [if_neg hm2, if_pos hcook]; rfl)

theorem check_winner_eq_spec (b : Board) : b.check_winner = checkWinnerSpec b := by
  unfold Board.check_winner checkWinnerSpec
  by_cases h : b.winner.isSome
  · rw [if_pos h, if_pos h]
  · rw [if_neg h, if_neg h]
    exact checkLines_eq_find b winCoords (by decide)

/-! Preservation of the border invariant. -/

theorem borderWall_set (b : Board) (r c : Nat) (p : Piece)
    (hr : r < 4) (hc1 : 1 ≤ c) (hc2 : c ≤ 4) (hb : b.borderWall) :
    (b.set_piece r c p).borderWall := by
  intro row hrow col hcol hedge
  rw [get_set_ne]
  · exact hb row hrow col hcol hedge
  · simp only [WIDTH, HEIGHT] at hedge hrow hcol ⊢
    omega

theorem borderWall_check_winner (b : Board) (hb : b.borderWall) :
    (b.check_winner).borderWall := by
  intro row hrow col hcol hedge
  rw [get_check_winner]
  exact hb row hrow col hcol hedge

theorem placeLoop_borderWall (b : Board) (p : Piece) (col : Nat) (l : List Nat)
    (hc1 : 1 ≤ col) (hc2 : col ≤ 4) (hl : ∀ r ∈ l, r < 4) (hb : b.borderWall) :
    ((placeLoop b p col l).1).borderWall := by
  induction l with
  | nil => exact hb
  | cons row rest ih =>
      simp only [placeLoop]
      split
      · exact ih fun r hr => hl r (by simp [hr])
      · exact borderWall_set b row col p (hl row (by simp)) hc1 hc2 hb

theorem play_piece_borderWall (b : Board) (team : String) (col : Nat)
    (hb : b.borderWall) : ((b.play_piece team col).1).borderWall := by
  unfold Board.play_piece
  split
  · exact hb
  · split
    · exact hb
    · rename_i hfin hcol
      have hc : 1 ≤ col ∧ col ≤ 4 := not_not.mp hcol
      split
      · exact placeLoop_borderWall b Piece.Cookie col [3, 2, 1, 0] hc.1 hc.2 (by decide) hb
      · exact placeLoop_borderWall b Piece.Milk col [3, 2, 1, 0] hc.1 hc.2 (by decide) hb
      · exact hb

/-! Lemmas about the gravity scan of play_piece. -/

theorem placeLoop_full (b : Board) (p : Piece) (col : Nat) (l : List Nat)
    (h : ∀ r ∈ l, b.has_piece r col = true) :
    placeLoop b p col l = (b, Except.error (SERVICE_UNAVAILABLE, boardDisplay b)) := by
  induction l with
  | nil => rfl
  | cons row rest ih =>
      simp only [placeLoop]
      rw [if_pos (h row (by simp))]
      exact ih fun r hr => h r (by simp [hr])

theorem play_piece_finished (b : Board) (team : String) (col : Nat)
    (h : b.finished = true) :
    b.play_piece team col = (b, Except.error (SERVICE_UNAVAILABLE, boardDisplay b)) := by
  unfold Board.play_piece
  rw [if_pos h]

/-! Lemmas about the random fill loop. -/

theorem fillLoop_get_ne (bits : Nat → Nat → Bool) (l : List (Nat × Nat))
    (b : Board) (r c : Nat)
    (h : ∀ x ∈ l, x.1 * WIDTH + x.2 ≠ r * WIDTH + c) :
    (fillLoop bits b l).get_piece r c = b.get_piece r c := by
  induction l generalizing b with
  | nil => rfl
  | cons x rest ih =>
      obtain ⟨row, col⟩ := x
      simp only [fillLoop]
      rw [ih _ fun y hy => h y (by simp [hy])]
      exact get_set_ne _ _ _ _ _ _ (h (row, col) (by simp))

theorem fillLoop_rng (bits : Nat → Nat → Bool) (l : List (Nat × Nat)) (b : Board) :
    (fillLoop bits b l).rng = ⟨b.rng.seed, b.rng.idx + l.length⟩ := by
  induction l generalizing b with
  | nil => cases h : b.rng with
      | mk seed idx => simp [fillLoop, h]
  | cons x rest ih =>
      obtain ⟨row, col⟩ := x
      simp only [fillLoop]
      rw [ih]
      rw [set_piece_rng]
      simp only [RngT.genBool, List.length_cons]
      congr 1
      omega

theorem fillLoop_winner (bits : Nat → Nat → Bool) (l : List (Nat × Nat)) (b : Board) :
    (fillLoop bits b l).winner = b.winner := by
  induction l generalizing b with
  | nil => rfl
  | cons x rest ih =>
      obtain ⟨row, col⟩ := x
      simp only [fillLoop]
      rw [ih, set_piece_winner]

/-- Position of the first occurrence of a coordinate in a list. -/
def posIn (x : Nat × Nat) : List (Nat × Nat) → Nat
  | [] => 0
  | y :: rest => if x = y then 0 else posIn x rest + 1

theorem fillLoop_get (bits : Nat → Nat → Bool) (l : List (Nat × Nat))
    (b : Board) (r c : Nat) (hmem : (r, c) ∈ l)
    (hb : ∀ x ∈ l, x.1 < 4 ∧ 1 ≤ x.2 ∧ x.2 ≤ 4)
    (hnd : (l.map fun x => x.1 * WIDTH + x.2).Nodup) :
    (fillLoop bits b l).get_piece r c =
      if bits b.rng.seed (b.rng.idx + posIn (r, c) l) then Piece.Cookie
      else Piece.Milk := by
  induction l generalizing b with
  | nil => cases hmem
  | cons x rest ih =>
      obtain ⟨row, col⟩ := x
      simp only [fillLoop]
      by_cases hx : (r, c) = (row, col)
      · injection hx with h1 h2
        subst h1
        subst h2
        have hnotin : (r * WIDTH + c) ∉ rest.map fun x => x.1 * WIDTH + x.2 := by
          simpa using (List.nodup_cons.mp hnd).1
        rw [fillLoop_get_ne bits rest _ r c ?hne]
        case hne =>
          intro y hy heq
          exact hnotin (heq ▸ List.mem_map_of_mem _ hy)
        rw [get_set_same]
        · simp [posIn, RngT.genBool]
        · have := hb (r, c) (by simp)
          simp only [WIDTH, HEIGHT]
          omega
      · have hmem2 : (r, c) ∈ rest := by
          rcases List.mem_cons.mp hmem with h | h
          · exact absurd h hx
          · exact h
        rw [ih _ hmem2 (fun y hy => hb y (by simp [hy]))
          (List.nodup_cons.mp hnd).2]
        have hrng : ((({ b with rng := (RngT.genBool bits b.rng).2 }).set_piece row col
            (if (RngT.genBool bits b.rng).1 then Piece.Cookie else Piece.Milk)).rng)
            = (⟨b.rng.seed, b.rng.idx + 1⟩ : RngT) := by
          rw [set_piece_rng]
          rfl
        rw [hrng]
        simp only [posIn, if_neg hx]
        have harith : b.rng.idx + 1 + posIn (r, c) rest
            = b.rng.idx + (posIn (r, c) rest + 1) := by omega
        rw [harith]

/-! Concrete facts about the fill order, settled by evaluation. -/

theorem fillOrder_eq : fillOrder =
    [(0, 1), (0, 2), (0, 3), (0, 4), (1, 1), (1, 2), (1, 3), (1, 4),
     (2, 1), (2, 2), (2, 3), (2, 4), (3, 1), (3, 2), (3, 3), (3, 4)] := by
  decide

theorem fillOrder_bounds : ∀ x ∈ fillOrder, x.1 < 4 ∧ 1 ≤ x.2 ∧ x.2 ≤ 4 := by
  decide

theorem fillOrder_nodup : (fillOrder.map fun x => x.1 * WIDTH + x.2).Nodup := by
  decide

theorem fillOrder_mem : ∀ r < 4, ∀ c < 4, (r, c + 1) ∈ fillOrder := by
  decide

theorem fillOrder_posIn : ∀ r < 4, ∀ c < 4,
    posIn (r, c + 1) fillOrder = r * 4 + c := by
  decide

theorem fillLoop_borderWall (bits : Nat → Nat → Bool) (l : List (Nat × Nat))
    (hl : ∀ x ∈ l, x.1 < 4 ∧ 1 ≤ x.2 ∧ x.2 ≤ 4) (b : Board) (hb : b.borderWall) :
    (fillLoop bits b l).borderWall := by
  intro row hrow col hcol hedge
  rw [fillLoop_get_ne]
  · exact hb row hrow col hcol hedge
  · intro x hx
    have hx2 := hl x hx
    simp only [WIDTH, HEIGHT] at hedge hrow hcol ⊢
    omega

theorem borderWall_winner_none (b : Board) (hb : b.borderWall) :
    ({ b with winner := none } : Board).borderWall := hb

theorem gridFull_of_no_empty (g : Fin (WIDTH * HEIGHT) → Piece)
    (h : ∀ i, g i ≠ Piece.Empty) : gridFull g = true := by
  unfold gridFull
  simp only [Bool.not_eq_true', List.any_eq_false]
  intro i hi
  simp [h i]

theorem fill_no_empty (bits : Nat → Nat → Bool) (b : Board) (hb : b.borderWall) :
    ∀ i : Fin (WIDTH * HEIGHT), (fillLoop bits b fillOrder).grid i ≠ Piece.Empty := by
  intro i
  have hi : i.val < 30 := by
    have h0 := i.isLt
    simp only [WIDTH, HEIGHT] at h0
    omega
  have hdecomp : (i.val / 6) * 6 + i.val % 6 = i.val := by omega
  have hgrid : (fillLoop bits b fillOrder).grid i
      = (fillLoop bits b fillOrder).get_piece (i.val / 6) (i.val % 6) := by
    unfold Board.get_piece
    rw [dif_pos (by simp only [WIDTH, HEIGHT]; omega)]
    congr 1
    exact (Fin.ext (by simp only [WIDTH]; omega)).symm
  rw [hgrid]
  by_cases hborder : i.val % 6 = 0 ∨ i.val % 6 = 5 ∨ i.val / 6 = 4
  · have hwall : (fillLoop bits b fillOrder).get_piece (i.val / 6) (i.val % 6)
        = Piece.Wall := by
      apply fillLoop_borderWall bits fillOrder fillOrder_bounds b hb
      · simp only [HEIGHT]; omega
      · simp only [WIDTH]; omega
      · simp only [WIDTH, HEIGHT]; omega
    rw [hwall]
    intro h
    cases h
  · have hr : i.val / 6 < 4 := by omega
    have hmem : (i.val / 6, i.val % 6) ∈ fillOrder := by
      have h0 := fillOrder_mem (i.val / 6) hr (i.val % 6 - 1) (by omega)
      have h1 : i.val % 6 - 1 + 1 = i.val % 6 := by omega
      rw [h1] at h0
      exact h0
    rw [fillLoop_get bits fillOrder b (i.val / 6) (i.val % 6)
      hmem fillOrder_bounds fillOrder_nodup]
    split
    · intro h; cases h
    · intro h; cases h

theorem fillLoop_finished_last (bits : Nat → Nat → Bool) (x : Nat × Nat)
    (l : List (Nat × Nat)) (b : Board) :
    (fillLoop bits b (x :: l)).finished = gridFull (fillLoop bits b (x :: l)).grid := by
  induction l generalizing b x with
  | nil =>
      obtain ⟨r, c⟩ := x
      simp only [fillLoop]
      exact set_piece_finished _ _ _ _
  | cons y rest ih =>
      obtain ⟨r, c⟩ := x
      simp only [fillLoop]
      exact ih _ _

theorem random_board_finished (bits : Nat → Nat → Bool) (b : Board)
    (hb : b.borderWall) : (b.random_board bits).finished = true := by
  unfold Board.random_board
  apply check_winner_finished_true
  have hcons : fillOrder = (0, 1) ::
      [(0, 2), (0, 3), (0, 4), (1, 1), (1, 2), (1, 3), (1, 4),
       (2, 1), (2, 2), (2, 3), (2, 4), (3, 1), (3, 2), (3, 3), (3, 4)] := by
    decide
  rw [hcons, fillLoop_finished_last]
  apply gridFull_of_no_empty
  rw [← hcons]
  exact fill_no_empty bits { b with winner := none } (borderWall_winner_none b hb)

theorem random_board_borderWall (bits : Nat → Nat → Bool) (b : Board)
    (hb : b.borderWall) : (b.random_board bits).borderWall := by
  unfold Board.random_board
  apply borderWall_check_winner
  exact fillLoop_borderWall bits fillOrder fillOrder_bounds _
    (borderWall_winner_none b hb)

/-! Preservation of the invariants by every operation. -/

theorem op_borderWall (op : Op) (b : Board) (hb : b.borderWall) :
    (op.apply b).borderWall := by
  cases op with
  | place team col => exact play_piece_borderWall b team col hb
  | winCheck => exact borderWall_check_winner b hb
  | randomize bits => exact random_board_borderWall bits b hb
  | render => exact hb

theorem op_finished (op : Op) (b : Board) (hb : b.borderWall)
    (hf : b.finished = true) : (op.apply b).finished = true := by
  cases op with
  | place team col =>
      show ((b.play_piece team col).1).finished = true
      rw [play_piece_finished b team col hf]
      exact hf
  | winCheck => exact check_winner_finished_true b hf
  | randomize bits => exact random_board_finished bits b hb
  | render => exact hf

/-! The claim theorems. -/

/-- C3: check_winner is a no-op when winner is already Some; otherwise it
behaves as the specified scan: it evaluates the ten fixed 4-cell lines in
the fixed order (the four rows top to bottom, the four columns left to
right, the descending diagonal, the ascending diagonal) and the first line
whose four cells are all Cookie or all Milk sets winner to that token and
finished to true, scanning stopping there. -/
theorem claim3_check_winner_first_line (b : Board) :
    b.check_winner = checkWinnerSpec b ∧ winCoords = specWinLines :=
  ⟨check_winner_eq_spec b, by decide⟩

/-- C5: finished is monotonic at operation boundaries: from any board of
the engine (border cells Wall) with finished = true, no sequence of place,
check_winner, randomize, or render operations yields finished = false;
reset does return finished to false. -/
theorem claim5_finished_monotonic :
    (∀ (ops : List Op) (b : Board), b.borderWall → b.finished = true →
      (runOps ops b).finished = true) ∧
    (∀ b : Board, (Board.reset b).finished = false) := by
  constructor
  · intro ops
    induction ops with
    | nil => exact fun b _ hf => hf
    | cons op rest ih =>
        intro b hb hf
        exact ih (Op.apply op b) (op_borderWall op b hb) (op_finished op b hb hf)
  · intro b
    show Board.new.finished = false
    decide

/-- C7: new() yields the fresh board: walls exactly on column 0, column
WIDTH-1 and row HEIGHT-1, Empty everywhere else, no winner, not finished,
generator seeded with the fixed constant 2024; and reset() yields a board
identical to new() from every state. -/
theorem claim7_new_reset :
    (∀ r < HEIGHT, ∀ c < WIDTH, Board.new.get_piece r c =
      if c = 0 ∨ c = WIDTH - 1 ∨ r = HEIGHT - 1 then Piece.Wall else Piece.Empty) ∧
    Board.new.winner = none ∧ Board.new.finished = false ∧
    Board.new.rng = ⟨2024, 0⟩ ∧
    (∀ b : Board, Board.reset b = Board.new) :=
  ⟨by decide, by decide, by decide, by decide, fun b => rfl⟩

/-- C8: starting from new(), every sequence of place, check_winner,
randomize, and render operations keeps every cell of column 0, column
WIDTH-1 and row HEIGHT-1 equal to Wall. -/
theorem claim8_border_invariant (ops : List Op) :
    (runOps ops Board.new).borderWall := by
  have hrun : ∀ (l : List Op) (b : Board), b.borderWall → (runOps l b).borderWall := by
    intro l
    induction l with
    | nil => exact fun b hb => hb
    | cons op rest ih => exact fun b hb => ih (Op.apply op b) (op_borderWall op b hb)
  exact hrun ops Board.new (by decide)

/-- C9: on any board of the engine (border cells Wall), random_board
leaves the board finished, and every subsequent place call is rejected
with the "board finished" condition carrying the rendered board, leaving
the board unchanged. -/
theorem claim9_random_board_terminal (bits : Nat → Nat → Bool) (b : Board)
    (hb : b.borderWall) :
    (b.random_board bits).finished = true ∧
    (∀ team col, (b.random_board bits).play_piece team col =
      (b.random_board bits,
        Except.error (SERVICE_UNAVAILABLE, boardDisplay (b.random_board bits)))) := by
  have hf := random_board_finished bits b hb
  exact ⟨hf, fun team col => play_piece_finished _ team col hf⟩

/-- C9 witness: the theorem applied to the all-true bit stream on the
fresh board. -/
theorem claim9_witness :
    ((Board.new.random_board fun _ _ => true)).finished = true :=
  (claim9_random_board_terminal (fun _ _ => true) Board.new (by decide)).1

/-- C5 witness: the theorem applied to a finished fresh board and a
one-operation sequence. -/
theorem claim5_witness :
    (runOps [Op.winCheck] { Board.new with finished := true }).finished = true :=
  claim5_finished_monotonic.1 [Op.winCheck] { Board.new with finished := true }
    (by decide) rfl

/-- C7 witness: the theorem applied at the top-left corner cell. -/
theorem claim7_witness :
    Board.new.get_piece 0 0 =
      if (0 : Nat) = 0 ∨ (0 : Nat) = WIDTH - 1 ∨ (0 : Nat) = HEIGHT - 1
      then Piece.Wall else Piece.Empty :=
  claim7_new_reset.1 0 (by decide) 0 (by decide)

/-- C6: random_board first clears winner, then fills the playable cells in
row-major order (rows 0..3, columns 1..4), drawing exactly one boolean per
cell from the owned generator (16 draws in total) and writing Cookie on
true and Milk on false, then invokes the win detector exactly once; it has
no failure branch, and on boards of the engine it never clears finished. -/
theorem claim6_random_board (bits : Nat → Nat → Bool) (b : Board) :
    b.random_board bits =
      Board.check_winner (fillLoop bits { b with winner := none } fillOrder) ∧
    fillOrder = [(0, 1), (0, 2), (0, 3), (0, 4), (1, 1), (1, 2), (1, 3), (1, 4),
      (2, 1), (2, 2), (2, 3), (2, 4), (3, 1), (3, 2), (3, 3), (3, 4)] ∧
    (fillLoop bits { b with winner := none } fillOrder).rng =
      ⟨b.rng.seed, b.rng.idx + 16⟩ ∧
    (∀ r < 4, ∀ c < 5, 1 ≤ c →
      (fillLoop bits { b with winner := none } fillOrder).get_piece r c =
        if bits b.rng.seed (b.rng.idx + (r * 4 + (c - 1))) then Piece.Cookie
        else Piece.Milk) ∧
    (b.borderWall → b.finished = true → (b.random_board bits).finished = true) := by
  refine ⟨rfl, fillOrder_eq, ?_, ?_, fun hb _ => random_board_finished bits b hb⟩
  · rw [fillLoop_rng]
    have hlen : fillOrder.length = 16 := by decide
    rw [hlen]
  · intro r hr c hc hc1
    have h1 : c - 1 + 1 = c := by omega
    have hmem : (r, c) ∈ fillOrder := by
      have h0 := fillOrder_mem r hr (c - 1) (by omega)
      rw [h1] at h0
      exact h0
    rw [fillLoop_get bits fillOrder _ r c hmem fillOrder_bounds fillOrder_nodup]
    have hpos : posIn (r, c) fillOrder = r * 4 + (c - 1) := by
      have h0 := fillOrder_posIn r hr (c - 1) (by omega)
      rw [h1] at h0
      exact h0
    rw [hpos]

/-- C6 witness: the theorem applied with the all-true stream on the fresh
board, at the first filled cell. -/
theorem claim6_witness :
    (fillLoop (fun _ _ => true) { Board.new with winner := none } fillOrder).get_piece 0 1 =
      if (fun _ _ => true : Nat → Nat → Bool) Board.new.rng.seed
          (Board.new.rng.idx + (0 * 4 + (1 - 1))) then Piece.Cookie
      else Piece.Milk :=
  (claim6_random_board (fun _ _ => true) Board.new).2.2.2.1 0 (by decide) 1
    (by decide) (by decide)

/-- A board on which Cookie has won, reached by four placements in column
1 from the fresh board, each followed by the win check. -/
def wonBoard : Board :=
  runOps [Op.place "cookie" 1, Op.winCheck, Op.place "cookie" 1, Op.winCheck,
          Op.place "cookie" 1, Op.winCheck, Op.place "cookie" 1, Op.winCheck]
    Board.new

/-- C1 counterexample: on a board whose winner is Cookie, the rendered
output does not end with the literal line "Cookie wins!"; it ends with the
glyph line "🍪 wins!", because the token's debug rendering delegates to
its display glyph. -/
theorem claim1_counterexample :
    wonBoard.winner = some Piece.Cookie ∧
    ("Cookie wins!\n".data.isSuffixOf (boardDisplay wonBoard).data) = false ∧
    ("🍪 wins!\n".data.isSuffixOf (boardDisplay wonBoard).data) = true :=
  ⟨by decide, by decide, by decide⟩

/-- C1 (amended): for every board whose winner is Some(token), the
rendered output is the grid lines followed by a trailing line of the
token's debug rendering — which is its display glyph, 🍪 for Cookie and 🥛
for Milk — followed by " wins!"; if winner is None and finished is true
the trailing line is "No winner.", and if the board is not finished no
trailing line is appended. -/
theorem claim1_render_trailing :
    (∀ (b : Board) (t : Piece), b.winner = some t →
      boardDisplay b = gridLines b ++ (pieceDebug t ++ " wins!\n")) ∧
    (∀ b : Board, b.winner = none → b.finished = true →
      boardDisplay b = gridLines b ++ "No winner.\n") ∧
    (∀ b : Board, b.winner = none → b.finished = false →
      boardDisplay b = gridLines b) ∧
    pieceDebug Piece.Cookie = "🍪" ∧ pieceDebug Piece.Milk = "🥛" := by
  refine ⟨?_, ?_, ?_, rfl, rfl⟩
  · intro b t hw
    unfold boardDisplay
    rw [hw]
  · intro b hw hf
    unfold boardDisplay
    rw [hw, if_pos hf]
  · intro b hw hf
    unfold boardDisplay
    rw [hw, if_neg (by simp [hf])]

/-- C1 witness: the amended theorem applied to the fresh board, which is
not finished and has no trailing line. -/
theorem claim1_witness : boardDisplay Board.new = gridLines Board.new :=
  claim1_render_trailing.2.2.1 Board.new (by decide) (by decide)

theorem play_piece_reduce (b : Board) (team : String) (col : Nat)
    (hf : b.finished = false) (h1 : 1 ≤ col) (h2 : col ≤ 4) :
    b.play_piece team col =
      (match team with
        | "cookie" => placeLoop b Piece.Cookie col [3, 2, 1, 0]
        | "milk" => placeLoop b Piece.Milk col [3, 2, 1, 0]
        | _ => (b, Except.error (BAD_REQUEST, ""))) := by
  unfold Board.play_piece
  rw [if_neg (by simp [hf]), if_neg (not_not_intro ⟨h1, h2⟩)]

theorem play_piece_bad_team (b : Board) (team : String) (col : Nat)
    (hf : b.finished = false) (h1 : 1 ≤ col) (h2 : col ≤ 4)
    (hc : team ≠ "cookie") (hm : team ≠ "milk") :
    b.play_piece team col = (b, Except.error (BAD_REQUEST, "")) := by
  rw [play_piece_reduce b team col hf h1 h2]
  split
  · exact absurd rfl hc
  · exact absurd rfl hm
  · rfl

/-- C10: the recognized team tokens of play_piece are exactly the
lowercase strings "cookie" and "milk": on an unfinished board with a
column in range, a successful call forces the team to be one of them, and
every other string is rejected with the "bad input" condition, empty
payload, and an unchanged board. -/
theorem claim10_team_tokens (b : Board) (team : String) (col : Nat)
    (hf : b.finished = false) (h1 : 1 ≤ col) (h2 : col ≤ 4) :
    ((b.play_piece team col).2 = Except.ok () →
      team = "cookie" ∨ team = "milk") ∧
    (team ≠ "cookie" → team ≠ "milk" →
      b.play_piece team col = (b, Except.error (BAD_REQUEST, ""))) := by
  constructor
  · intro hok
    by_cases hc : team = "cookie"
    · exact Or.inl hc
    by_cases hm : team = "milk"
    · exact Or.inr hm
    rw [play_piece_bad_team b team col hf h1 h2 hc hm] at hok
    cases hok
  · exact play_piece_bad_team b team col hf h1 h2

/-- C10 witness: the theorem applied to the fresh board, column 1, and the
unrecognized team token "eggnog". -/
theorem claim10_witness :
    Board.new.play_piece "eggnog" 1 = (Board.new, Except.error (BAD_REQUEST, "")) :=
  (claim10_team_tokens Board.new "eggnog" 1 (by decide) (by decide) (by decide)).2
    (by decide) (by decide)

/-- C4: play_piece fails with the "board finished" condition carrying the
rendered board when finished is already true, and also when the column is
in range, the team is recognized, and the column has no Empty playable row
left; it fails with the "bad input" condition with empty payload when the
column is out of range (board unfinished) or the team token is
unrecognized (board unfinished, column in range); every failure carries
the board unchanged. -/
theorem claim4_place_failures (b : Board) (team : String) (col : Nat) :
    (b.finished = true →
      b.play_piece team col =
        (b, Except.error (SERVICE_UNAVAILABLE, boardDisplay b))) ∧
    (b.finished = false → ¬(1 ≤ col ∧ col ≤ 4) →
      b.play_piece team col = (b, Except.error (BAD_REQUEST, ""))) ∧
    (b.finished = false → 1 ≤ col → col ≤ 4 → team ≠ "cookie" → team ≠ "milk" →
      b.play_piece team col = (b, Except.error (BAD_REQUEST, ""))) ∧
    (b.finished = false → 1 ≤ col → col ≤ 4 →
      (team = "cookie" ∨ team = "milk") →
      (∀ r < 4, b.get_piece r col ≠ Piece.Wall) →
      (∀ r < 4, b.get_piece r col ≠ Piece.Empty) →
      b.play_piece team col =
        (b, Except.error (SERVICE_UNAVAILABLE, boardDisplay b))) := by
  refine ⟨play_piece_finished b team col, ?_, ?_, ?_⟩
  · intro hf hcol
    unfold Board.play_piece
    rw [if_neg (by simp [hf]), if_pos hcol]
  · exact fun hf h1 h2 => play_piece_bad_team b team col hf h1 h2
  · intro hf h1 h2 hteam hW hE
    have hfull : ∀ r ∈ [3, 2, 1, 0], b.has_piece r col = true := by
      intro r hr
      have hr4 : r < 4 := by
        simp only [List.mem_cons, List.not_mem_nil, or_false] at hr
        omega
      exact has_piece_true_of b r col (hW r hr4) (hE r hr4)
    rw [play_piece_reduce b team col hf h1 h2]
    rcases hteam with hc | hm
    · subst hc
      exact placeLoop_full b Piece.Cookie col [3, 2, 1, 0] hfull
    · subst hm
      exact placeLoop_full b Piece.Milk col [3, 2, 1, 0] hfull

/-- C4 witness: the theorem's out-of-range case applied to the fresh board
at column 0. -/
theorem claim4_witness :
    Board.new.play_piece "cookie" 0 = (Board.new, Except.error (BAD_REQUEST, "")) :=
  (claim4_place_failures Board.new "cookie" 0).2.1 (by decide) (by decide)

theorem claim2_leaf (b : Board) (p : Piece) (col r : Nat)
    (h2 : col ≤ 4) (hr : r < 4) :
    (b.set_piece r col p).get_piece r col = p ∧
    (∀ r2 c2, r2 * WIDTH + c2 ≠ r * WIDTH + col →
      (b.set_piece r col p).get_piece r2 c2 = b.get_piece r2 c2) ∧
    (b.set_piece r col p).winner = b.winner ∧
    (b.set_piece r col p).rng = b.rng := by
  refine ⟨?_, ?_, set_piece_winner b r col p, set_piece_rng b r col p⟩
  · exact get_set_same b r col p (by simp only [WIDTH, HEIGHT]; omega)
  · intro r2 c2 hne
    exact get_set_ne b r col r2 c2 p fun h => hne h.symm

/-- C2: on an unfinished board with playable column col in [1,4] whose
playable cells are not Wall and at least one is Empty, a recognized-team
place call succeeds, writing the team's token into the largest-indexed
Empty row of rows 0..3 of that column (the bottom of the stack, all cells
below it being non-Empty), mutating exactly that one cell and nothing
else. -/
theorem claim2_gravity (b : Board) (team : String) (col : Nat)
    (hf : b.finished = false) (h1 : 1 ≤ col) (h2 : col ≤ 4)
    (hteam : team = "cookie" ∨ team = "milk")
    (hW : ∀ r < 4, b.get_piece r col ≠ Piece.Wall)
    (hE : ∃ r, r < 4 ∧ b.get_piece r col = Piece.Empty) :
    ∃ r, r < 4 ∧ b.get_piece r col = Piece.Empty ∧
      (∀ r2, r < r2 → r2 < 4 → b.get_piece r2 col ≠ Piece.Empty) ∧
      (∀ r2 < 4, b.get_piece r2 col = Piece.Empty → r2 ≤ r) ∧
      b.play_piece team col = (b.set_piece r col (teamPiece team), Except.ok ()) ∧
      (b.set_piece r col (teamPiece team)).get_piece r col = teamPiece team ∧
      (∀ r2 c2, r2 * WIDTH + c2 ≠ r * WIDTH + col →
        (b.set_piece r col (teamPiece team)).get_piece r2 c2 = b.get_piece r2 c2) ∧
      (b.set_piece r col (teamPiece team)).winner = b.winner ∧
      (b.set_piece r col (teamPiece team)).rng = b.rng := by
  have hplay : b.play_piece team col = placeLoop b (teamPiece team) col [3, 2, 1, 0] := by
    rw [play_piece_reduce b team col hf h1 h2]
    rcases hteam with h | h <;> subst h <;> rfl
  have hhas : ∀ r, r < 4 →
      (b.has_piece r col = false ↔ b.get_piece r col = Piece.Empty) :=
    fun r hr => has_piece_false_iff b r col (hW r hr)
  by_cases e3 : b.get_piece 3 col = Piece.Empty
  · obtain ⟨g1, g2, g3, g4⟩ := claim2_leaf b (teamPiece team) col 3 h2 (by omega)
    refine ⟨3, by omega, e3, ?_, ?_, ?_, g1, g2, g3, g4⟩
    · intro r2 hgt hlt4
      exact absurd hgt (by omega)
    · intro r2 hlt4 hEm
      omega
    · rw [hplay]
      have h3f : b.has_piece 3 col = false := (hhas 3 (by omega)).mpr e3
      simp [placeLoop, h3f]
  · have h3t : b.has_piece 3 col = true :=
      has_piece_true_of b 3 col (hW 3 (by omega)) e3
    by_cases e2 : b.get_piece 2 col = Piece.Empty
    · obtain ⟨g1, g2, g3, g4⟩ := claim2_leaf b (teamPiece team) col 2 h2 (by omega)
      refine ⟨2, by omega, e2, ?_, ?_, ?_, g1, g2, g3, g4⟩
      · intro r2 hgt hlt4
        have hr2 : r2 = 3 := by omega
        subst hr2
        exact e3
      · intro r2 hlt4 hEm
        by_contra hle
        have hr2 : r2 = 3 := by omega
        subst hr2
        exact e3 hEm
      · rw [hplay]
        have h2f : b.has_piece 2 col = false := (hhas 2 (by omega)).mpr e2
        simp [placeLoop, h3t, h2f]
    · have h2t : b.has_piece 2 col = true :=
        has_piece_true_of b 2 col (hW 2 (by omega)) e2
      by_cases e1 : b.get_piece 1 col = Piece.Empty
      · obtain ⟨g1, g2, g3, g4⟩ := claim2_leaf b (teamPiece team) col 1 h2 (by omega)
        refine ⟨1, by omega, e1, ?_, ?_, ?_, g1, g2, g3, g4⟩
        · intro r2 hgt hlt4
          have hr2 : r2 = 2 ∨ r2 = 3 := by omega
          rcases hr2 with hr2 | hr2 <;> subst hr2
          · exact e2
          · exact e3
        · intro r2 hlt4 hEm
          by_contra hle
          have hr2 : r2 = 2 ∨ r2 = 3 := by omega
          rcases hr2 with hr2 | hr2 <;> subst hr2
          · exact e2 hEm
          · exact e3 hEm
        · rw [hplay]
          have h1f : b.has_piece 1 col = false := (hhas 1 (by omega)).mpr e1
          simp [placeLoop, h3t, h2t, h1f]
      · have h1t : b.has_piece 1 col = true :=
          has_piece_true_of b 1 col (hW 1 (by omega)) e1
        by_cases e0 : b.get_piece 0 col = Piece.Empty
        · obtain ⟨g1, g2, g3, g4⟩ := claim2_leaf b (teamPiece team) col 0 h2 (by omega)
          refine ⟨0, by omega, e0, ?_, ?_, ?_, g1, g2, g3, g4⟩
          · intro r2 hgt hlt4
            have hr2 : r2 = 1 ∨ r2 = 2 ∨ r2 = 3 := by omega
            rcases hr2 with hr2 | hr2 | hr2 <;> subst hr2
            · exact e1
            · exact e2
            · exact e3
          · intro r2 hlt4 hEm
            by_contra hle
            have hr2 : r2 = 1 ∨ r2 = 2 ∨ r2 = 3 := by omega
            rcases hr2 with hr2 | hr2 | hr2 <;> subst hr2
            · exact e1 hEm
            · exact e2 hEm
            · exact e3 hEm
          · rw [hplay]
            have h0f : b.has_piece 0 col = false := (hhas 0 (by omega)).mpr e0
            simp [placeLoop, h3t, h2t, h1t, h0f]
        · exfalso
          obtain ⟨r, hr4, hEm⟩ := hE
          have hr2 : r = 0 ∨ r = 1 ∨ r = 2 ∨ r = 3 := by omega
          rcases hr2 with hr2 | hr2 | hr2 | hr2 <;> subst hr2
          · exact e0 hEm
          · exact e1 hEm
          · exact e2 hEm
          · exact e3 hEm

/-- C2 witness: the theorem applied to the fresh board, team "cookie",
column 1; the landing row is row 3. -/
theorem claim2_witness :
    ∃ r, r < 4 ∧ Board.new.get_piece r 1 = Piece.Empty ∧
      (∀ r2, r < r2 → r2 < 4 → Board.new.get_piece r2 1 ≠ Piece.Empty) ∧
      (∀ r2 < 4, Board.new.get_piece r2 1 = Piece.Empty → r2 ≤ r) ∧
      Board.new.play_piece "cookie" 1 =
        (Board.new.set_piece r 1 (teamPiece "cookie"), Except.ok ()) ∧
      (Board.new.set_piece r 1 (teamPiece "cookie")).get_piece r 1 =
        teamPiece "cookie" ∧
      (∀ r2 c2, r2 * WIDTH + c2 ≠ r * WIDTH + 1 →
        (Board.new.set_piece r 1 (teamPiece "cookie")).get_piece r2 c2 =
          Board.new.get_piece r2 c2) ∧
      (Board.new.set_piece r 1 (teamPiece "cookie")).winner = Board.new.winner ∧
      (Board.new.set_piece r 1 (teamPiece "cookie")).rng = Board.new.rng :=
  claim2_gravity Board.new "cookie" 1 (by decide) (by decide) (by decide)
    (Or.inl rfl) (by decide) ⟨3, by decide, by decide⟩

end Day5
